import Mathlib

/-!
# Verification of the `join-it` sort-merge join

The repository documents a generic sort-merge join over two key-sorted
sequences: a functional core (`MergeJoinCore`, surfaced as the struct
`JoinIt` with a `next` method and the push-based entry point `join_it`),
and a `Joinable` capability that delegates to the core.  The shipped
artifact is a documentation fragment (`src/doc/search-index.js`), so the
executable definitions below are modelled from the specification's
algorithm and contract, faithful to its words, and the theorems check the
specification's testable properties against them.
-/

namespace Lib

universe u v w x y z

variable {α : Type u} {β : Type v} {γ : Type w} {κ : Type x} {δ : Type y} [LinearOrder κ]

/-- A sequence is key-sorted when its extracted keys are non-decreasing in
iteration order (the spec's precondition on both inputs). -/
def KeySorted (key : α → κ) (l : List α) : Prop :=
  l.Pairwise (fun a b => key a ≤ key b)

instance (key : α → κ) (l : List α) : Decidable (KeySorted key l) := by
  unfold KeySorted; infer_instance

/-- Modelled from the spec: the MergeJoinCore algorithm (§4.1 Algorithm),
missing from the shipped sources.  One lookahead per side; on `K_L < K_R`
advance left, on `K_L > K_R` advance right; on equality the right group is
buffered (`takeWhile`), every left element of the group is replayed against
the whole buffer in nested order, and iteration resumes past both groups. -/
def mergeJoin (kl : α → κ) (kr : β → κ) (f : α → β → γ) :
    List α → List β → List γ
  | [], _ => []
  | _ :: _, [] => []
  | l :: ls, r :: rs =>
    if kl l < kr r then mergeJoin kl kr f ls (r :: rs)
    else if kr r < kl l then mergeJoin kl kr f (l :: ls) rs
    else
      ((l :: ls).takeWhile (fun x => decide (kl x = kl l))).flatMap
          (fun x => ((r :: rs).takeWhile (fun y => decide (kr y = kl l))).map (f x))
        ++ mergeJoin kl kr f
            ((l :: ls).dropWhile (fun x => decide (kl x = kl l)))
            ((r :: rs).dropWhile (fun y => decide (kr y = kl l)))
  termination_by la lb => la.length + lb.length
  decreasing_by
  · simp only [List.length_cons]; omega
  · simp only [List.length_cons]; omega
  · have hl : ((l :: ls).dropWhile (fun x => decide (kl x = kl l))).length ≤ ls.length := by
      have : (l :: ls).dropWhile (fun x => decide (kl x = kl l))
          = ls.dropWhile (fun x => decide (kl x = kl l)) := by
        simp [List.dropWhile_cons]
      rw [this]; exact (List.dropWhile_sublist _).length_le
    have hr : ((r :: rs).dropWhile (fun y => decide (kr y = kl l))).length ≤ rs.length := by
      have hk : kr r = kl l := le_antisymm (not_lt.mp (by assumption)) (not_lt.mp (by assumption))
      have : (r :: rs).dropWhile (fun y => decide (kr y = kl l))
          = rs.dropWhile (fun y => decide (kr y = kl l)) := by
        simp [List.dropWhile_cons, hk]
      rw [this]; exact (List.dropWhile_sublist _).length_le
    simp only [List.length_cons]; omega

/-- Modelled from the spec: the §4.1 Contract — every `Combiner(l, r)` with
equal keys, ordered by nested iteration (left order outer, right order
inner).  This is the declarative counterpart against which the algorithm is
verified. -/
def joinSpec (kl : α → κ) (kr : β → κ) (f : α → β → γ)
    (L : List α) (R : List β) : List γ :=
  L.flatMap (fun x => (R.filter (fun y => decide (kr y = kl x))).map (f x))

/-- Modelled from the spec: the pull-based iterator state (`MergeJoinCore
state`, §3; the struct `JoinIt` of the search index).  It owns the two
sequence cursors, the current group key, the buffered right group, and the
portion of the buffer still to be replayed against the current left
element. -/
structure JoinIt (α : Type u) (β : Type v) (κ : Type x) where
  left : List α
  right : List β
  groupKey : Option κ
  buf : List β
  pend : List β

/-- Constructing the core from the two sequences (join start, §3): both
cursors at the front, nothing buffered. -/
def JoinIt.init (L : List α) (R : List β) : JoinIt α β κ :=
  ⟨L, R, none, [], []⟩

/-- Bound on the lookahead/advance steps the iterator can still take; used
to define `next` and `run` by well-founded recursion. -/
def coreMeasure : JoinIt α β κ → Nat
  | ⟨left, right, gk, _, _⟩ =>
    2 * left.length + 2 * right.length + (match gk with | some _ => 1 | none => 0)

/-- Modelled from the spec: one pull on the iterator (the `next` method of
`JoinIt`): advance the core by one logical step and return either the next
combined result with the successor state, or the end-of-sequence signal
`none` (§4.2 Pull form, §4.1 Algorithm). -/
def next (kl : α → κ) (kr : β → κ) (f : α → β → γ) :
    JoinIt α β κ → Option (γ × JoinIt α β κ)
  | ⟨l :: ls, right, some k, buf, r :: ps⟩ =>
    some (f l r, ⟨l :: ls, right, some k, buf, ps⟩)
  | ⟨[], _, some _, _, _ :: _⟩ => none
  | ⟨_ :: ls, right, some k, buf, []⟩ =>
    match ls with
    | [] => none
    | l' :: ls' =>
      if kl l' = k then next kl kr f ⟨l' :: ls', right, some k, buf, buf⟩
      else next kl kr f ⟨l' :: ls', right, none, [], []⟩
  | ⟨[], _, some _, _, []⟩ => none
  | ⟨[], _, none, _, _⟩ => none
  | ⟨_ :: _, [], none, _, _⟩ => none
  | ⟨l :: ls, r :: rs, none, _, _⟩ =>
    if kl l < kr r then next kl kr f ⟨ls, r :: rs, none, [], []⟩
    else if kr r < kl l then next kl kr f ⟨l :: ls, rs, none, [], []⟩
    else
      next kl kr f ⟨l :: ls, (r :: rs).dropWhile (fun y => decide (kr y = kl l)), some (kl l),
        (r :: rs).takeWhile (fun y => decide (kr y = kl l)),
        (r :: rs).takeWhile (fun y => decide (kr y = kl l))⟩
  termination_by s => coreMeasure s
  decreasing_by
  · simp only [coreMeasure, List.length_cons]; omega
  · simp only [coreMeasure, List.length_cons]; omega
  · simp only [coreMeasure, List.length_cons]; omega
  · simp only [coreMeasure, List.length_cons]; omega
  · have : ((r :: rs).dropWhile (fun y => decide (kr y = kl l))).length ≤ rs.length := by
      have hk : kr r = kl l := le_antisymm (not_lt.mp (by assumption)) (not_lt.mp (by assumption))
      have : (r :: rs).dropWhile (fun y => decide (kr y = kl l))
          = rs.dropWhile (fun y => decide (kr y = kl l)) := by
        simp [List.dropWhile_cons, hk]
      rw [this]; exact (List.dropWhile_sublist _).length_le
    simp only [coreMeasure, List.length_cons]; omega

/-- Modelled from the spec: exhaustively pulling the iterator, collecting
its results in order (the full pull-form result sequence). -/
def run (kl : α → κ) (kr : β → κ) (f : α → β → γ) :
    JoinIt α β κ → List γ
  | ⟨l :: ls, right, some k, buf, r :: ps⟩ =>
    f l r :: run kl kr f ⟨l :: ls, right, some k, buf, ps⟩
  | ⟨[], _, some _, _, _ :: _⟩ => []
  | ⟨_ :: ls, right, some k, buf, []⟩ =>
    match ls with
    | [] => []
    | l' :: ls' =>
      if kl l' = k then run kl kr f ⟨l' :: ls', right, some k, buf, buf⟩
      else run kl kr f ⟨l' :: ls', right, none, [], []⟩
  | ⟨[], _, some _, _, []⟩ => []
  | ⟨[], _, none, _, _⟩ => []
  | ⟨_ :: _, [], none, _, _⟩ => []
  | ⟨l :: ls, r :: rs, none, _, _⟩ =>
    if kl l < kr r then run kl kr f ⟨ls, r :: rs, none, [], []⟩
    else if kr r < kl l then run kl kr f ⟨l :: ls, rs, none, [], []⟩
    else
      run kl kr f ⟨l :: ls, (r :: rs).dropWhile (fun y => decide (kr y = kl l)), some (kl l),
        (r :: rs).takeWhile (fun y => decide (kr y = kl l)),
        (r :: rs).takeWhile (fun y => decide (kr y = kl l))⟩
  termination_by s => (coreMeasure s, s.pend.length)
  decreasing_by
  · apply Prod.Lex.right
    simp only [List.length_cons]; omega
  · apply Prod.Lex.left
    simp only [coreMeasure, List.length_cons]; omega
  · apply Prod.Lex.left
    simp only [coreMeasure, List.length_cons]; omega
  · apply Prod.Lex.left
    simp only [coreMeasure, List.length_cons]; omega
  · apply Prod.Lex.left
    simp only [coreMeasure, List.length_cons]; omega
  · apply Prod.Lex.left
    have : ((r :: rs).dropWhile (fun y => decide (kr y = kl l))).length ≤ rs.length := by
      have hk : kr r = kl l := le_antisymm (not_lt.mp (by assumption)) (not_lt.mp (by assumption))
      have : (r :: rs).dropWhile (fun y => decide (kr y = kl l))
          = rs.dropWhile (fun y => decide (kr y = kl l)) := by
        simp [List.dropWhile_cons, hk]
      rw [this]; exact (List.dropWhile_sublist _).length_le
    simp only [coreMeasure, List.length_cons]; omega

/-- Modelled from the spec: the `Joinable` capability (§4.2): an entity
that can produce a sequence. -/
structure Joinable (σ : Type z) (α : Type u) where
  produce : σ → List α

/-- Modelled from the spec: the capability's `join` method, delegating to
the core by constructing the pull iterator over the two produced sequences
and draining it (§4.2 Contract and Pull form). -/
def Joinable.join {σ : Type z} {τ : Type y} (J : Joinable σ α) (K : Joinable τ β)
    (kl : α → κ) (kr : β → κ) (f : α → β → γ) (s : σ) (t : τ) : List γ :=
  run kl kr f (JoinIt.init (J.produce s) (K.produce t))

/-- Modelled from the spec and the search index: the push-based entry point
`join_it(i, j, ki, kj, f)` ("Maps f over the join between `i` and `j`",
declared output `null`).  The caller-supplied function is modelled as a
state transformer `f : α → β → σ → σ`; `join_it` drives the core to
completion, invoking `f` once per matched pair in join order, and returns
only the threaded callback state — no collection of results. -/
def join_it {σ : Type z} (i : List α) (j : List β) (ki : α → κ) (kj : β → κ)
    (f : α → β → σ → σ) (s : σ) : σ :=
  match i, j with
  | [], _ => s
  | _ :: _, [] => s
  | l :: ls, r :: rs =>
    if ki l < kj r then join_it ls (r :: rs) ki kj f s
    else if kj r < ki l then join_it (l :: ls) rs ki kj f s
    else
      join_it ((l :: ls).dropWhile (fun x => decide (ki x = ki l)))
        ((r :: rs).dropWhile (fun y => decide (kj y = ki l))) ki kj f
        (((l :: ls).takeWhile (fun x => decide (ki x = ki l))).foldl
          (fun acc x => ((r :: rs).takeWhile (fun y => decide (kj y = ki l))).foldl
            (fun a y => f x y a) acc) s)
  termination_by i.length + j.length
  decreasing_by
  · simp only [List.length_cons]; omega
  · simp only [List.length_cons]; omega
  · have hl : ((l :: ls).dropWhile (fun x => decide (ki x = ki l))).length ≤ ls.length := by
      have : (l :: ls).dropWhile (fun x => decide (ki x = ki l))
          = ls.dropWhile (fun x => decide (ki x = ki l)) := by
        simp [List.dropWhile_cons]
      rw [this]; exact (List.dropWhile_sublist _).length_le
    have hr : ((r :: rs).dropWhile (fun y => decide (kj y = ki l))).length ≤ rs.length := by
      have hk : kj r = ki l := le_antisymm (not_lt.mp (by assumption)) (not_lt.mp (by assumption))
      have : (r :: rs).dropWhile (fun y => decide (kj y = ki l))
          = rs.dropWhile (fun y => decide (kj y = ki l)) := by
        simp [List.dropWhile_cons, hk]
      rw [this]; exact (List.dropWhile_sublist _).length_le
    simp only [List.length_cons]; omega

/-- States the pull iterator can pass through, starting from a given state:
reflexive-transitive closure of successful pulls. -/
inductive Reach (kl : α → κ) (kr : β → κ) (f : α → β → γ) :
    JoinIt α β κ → JoinIt α β κ → Prop
  | refl (s : JoinIt α β κ) : Reach kl kr f s s
  | step {s s' t : JoinIt α β κ} {x : γ} :
      Reach kl kr f s s' → next kl kr f s' = some (x, t) → Reach kl kr f s t

/-- Size of the largest single key-group of a sequence: the largest count,
over elements `y`, of elements sharing `y`'s key. -/
def maxGroupSize (key : β → κ) (R : List β) : Nat :=
  (R.map (fun y => R.countP (fun z => decide (key z = key y)))).foldr max 0

/-- Buffer-related invariant of the iterator relative to the original right
sequence `R`: the right cursor is a suffix of `R`, the buffer is an
equal-key sublist of `R`, and the replay remainder is a sublist of the
buffer. -/
def BufInv (kr : β → κ) (R : List β) (s : JoinIt α β κ) : Prop :=
  s.right.IsSuffix R ∧ s.buf.Sublist R
    ∧ (∀ x ∈ s.buf, ∀ y ∈ s.buf, kr x = kr y)
    ∧ s.pend.Sublist s.buf

/-- Collect the successful prefix of a sequence of fallible results and the
first failure, if any: what an immediately-propagating, non-retrying driver
observes. -/
def collectE {ε : Type z} : List (Except ε γ) → List γ × Option ε
  | [] => ([], none)
  | Except.error e :: _ => ([], some e)
  | Except.ok g :: t =>
    let p := collectE t
    (g :: p.1, p.2)

/-- Modelled from the spec: replaying one left element against the buffered
right group with a fallible combiner; evaluation is in buffer order and the
first failure aborts the replay (§4.1 Failure semantics). -/
def emitRowE {ε : Type z} (f : α → β → Except ε γ) (x : α) :
    List β → List γ × Option ε
  | [] => ([], none)
  | y :: ys =>
    match f x y with
    | Except.error e => ([], some e)
    | Except.ok g =>
      let p := emitRowE f x ys
      (g :: p.1, p.2)

/-- Modelled from the spec: emitting a whole matched group — each left
element of the group in order against the full buffer — aborting at the
first combiner failure. -/
def emitGroupE {ε : Type z} (f : α → β → Except ε γ) (buf : List β) :
    List α → List γ × Option ε
  | [] => ([], none)
  | x :: xs =>
    let p := emitRowE f x buf
    match p.2 with
    | some e => (p.1, some e)
    | none =>
      let q := emitGroupE f buf xs
      (p.1 ++ q.1, q.2)

/-- Modelled from the spec: the merge join over fallible collaborators
(§4.1 Failure semantics, §7).  Each side is a single-pass stream that
yields its list and then either ends cleanly (`none`) or fails on the pull
past its last element (`some e`); the combiner may fail on any pair.  The
join pulls the left lookahead first, buffers the right group before
emitting it (so a right-stream failure met while buffering precedes the
group's results), and propagates the first failure immediately, emitting
nothing after it. -/
def mergeJoinE {ε : Type z} (kl : α → κ) (kr : β → κ) (f : α → β → Except ε γ) :
    List α → Option ε → List β → Option ε → List γ × Option ε
  | [], le, _, _ => ([], le)
  | _ :: _, _, [], re => ([], re)
  | l :: ls, le, r :: rs, re =>
    if kl l < kr r then mergeJoinE kl kr f ls le (r :: rs) re
    else if kr r < kl l then mergeJoinE kl kr f (l :: ls) le rs re
    else
      let rest := (r :: rs).dropWhile (fun y => decide (kr y = kl l))
      if rest.isEmpty ∧ re.isSome then ([], re)
      else
        let p := emitGroupE f ((r :: rs).takeWhile (fun y => decide (kr y = kl l)))
          ((l :: ls).takeWhile (fun x => decide (kl x = kl l)))
        match p.2 with
        | some e => (p.1, some e)
        | none =>
          let q := mergeJoinE kl kr f
            ((l :: ls).dropWhile (fun x => decide (kl x = kl l))) le rest re
          (p.1 ++ q.1, q.2)
  termination_by la _ lb _ => la.length + lb.length
  decreasing_by
  · simp only [List.length_cons]; omega
  · simp only [List.length_cons]; omega
  · have hl : ((l :: ls).dropWhile (fun x => decide (kl x = kl l))).length ≤ ls.length := by
      have : (l :: ls).dropWhile (fun x => decide (kl x = kl l))
          = ls.dropWhile (fun x => decide (kl x = kl l)) := by
        simp [List.dropWhile_cons]
      rw [this]; exact (List.dropWhile_sublist _).length_le
    have hr : ((r :: rs).dropWhile (fun y => decide (kr y = kl l))).length ≤ rs.length := by
      have hk : kr r = kl l := le_antisymm (not_lt.mp (by assumption)) (not_lt.mp (by assumption))
      have : (r :: rs).dropWhile (fun y => decide (kr y = kl l))
          = rs.dropWhile (fun y => decide (kr y = kl l)) := by
        simp [List.dropWhile_cons, hk]
      rw [this]; exact (List.dropWhile_sublist _).length_le
    simp only [List.length_cons]; omega

theorem joinSpec_nil_left (kl : α → κ) (kr : β → κ) (f : α → β → γ) (R : List β) :
    joinSpec kl kr f [] R = [] := rfl

theorem joinSpec_nil_right (kl : α → κ) (kr : β → κ) (f : α → β → γ) (L : List α) :
    joinSpec kl kr f L [] = [] := by
  simp [joinSpec]

theorem joinSpec_cons (kl : α → κ) (kr : β → κ) (f : α → β → γ)
    (l : α) (ls : List α) (R : List β) :
    joinSpec kl kr f (l :: ls) R
      = (R.filter (fun y => decide (kr y = kl l))).map (f l) ++ joinSpec kl kr f ls R := by
  simp [joinSpec]

theorem flatMap_congr {l : List α} {g g' : α → List γ} (h : ∀ x ∈ l, g x = g' x) :
    l.flatMap g = l.flatMap g' := by
  induction l with
  | nil => rfl
  | cons a l ih =>
    simp only [List.flatMap_cons, h a (List.mem_cons_self a l)]
    exact congrArg _ (ih fun x hx => h x (List.mem_cons_of_mem a hx))

theorem keySorted_tail {key : α → κ} {a : α} {l : List α}
    (h : KeySorted key (a :: l)) : KeySorted key l :=
  (List.pairwise_cons.mp h).2

theorem keySorted_head_le {key : α → κ} {a : α} {l : List α}
    (h : KeySorted key (a :: l)) : ∀ x ∈ l, key a ≤ key x :=
  (List.pairwise_cons.mp h).1

theorem keySorted_sublist {key : α → κ} {l l' : List α}
    (hs : l.Sublist l') (h : KeySorted key l') : KeySorted key l :=
  List.Pairwise.sublist hs h

/-- In a sorted list whose elements all have keys `≥ k`, the elements with
key exactly `k` form the initial run: filtering equals `takeWhile`. -/
theorem filter_eq_takeWhile_of_sorted {key : β → κ} {k : κ} {l : List β}
    (hs : KeySorted key l) (hge : ∀ y ∈ l, k ≤ key y) :
    l.filter (fun y => decide (key y = k)) = l.takeWhile (fun y => decide (key y = k)) := by
  induction l with
  | nil => rfl
  | cons b bs ih =>
    by_cases hb : key b = k
    · rw [List.filter_cons, List.takeWhile_cons, if_pos (by simp [hb]), if_pos (by simp [hb])]
      exact congrArg _ (ih (keySorted_tail hs) fun y hy => hge y (List.mem_cons_of_mem b hy))
    · rw [List.filter_cons, List.takeWhile_cons, if_neg (by simp [hb]), if_neg (by simp [hb])]
      have hk : k < key b := lt_of_le_of_ne (hge b (List.mem_cons_self b bs)) (Ne.symm hb)
      refine List.filter_eq_nil_iff.mpr fun y hy => ?_
      have hby : key b ≤ key y := keySorted_head_le hs y hy
      simp only [decide_eq_true_eq]
      intro he
      rw [he] at hby
      exact absurd hk (not_lt.mpr hby)

/-- Everything surviving `dropWhile (key · = k)` in a sorted list with keys
`≥ k` has key strictly greater than `k`. -/
theorem dropWhile_key_gt {key : α → κ} {k : κ} {l : List α}
    (hs : KeySorted key l) (hge : ∀ x ∈ l, k ≤ key x) :
    ∀ x ∈ l.dropWhile (fun y => decide (key y = k)), k < key x := by
  induction l with
  | nil => intro x hx; simp [List.dropWhile] at hx
  | cons b bs ih =>
    by_cases hb : key b = k
    · rw [List.dropWhile_cons, if_pos (by simp [hb])]
      exact ih (keySorted_tail hs) fun x hx => hge x (List.mem_cons_of_mem b hx)
    · rw [List.dropWhile_cons, if_neg (by simp [hb])]
      intro x hx
      have hkb : k < key b := lt_of_le_of_ne (hge b (List.mem_cons_self b bs)) (Ne.symm hb)
      rcases List.mem_cons.mp hx with rfl | hx
      · exact hkb
      · exact lt_of_lt_of_le hkb (keySorted_head_le hs x hx)

/-- Filtering for a key other than `k` ignores the initial `k`-run. -/
theorem filter_dropWhile_ne {key : β → κ} {k v : κ} (hne : v ≠ k) (l : List β) :
    l.filter (fun y => decide (key y = v))
      = (l.dropWhile (fun y => decide (key y = k))).filter (fun y => decide (key y = v)) := by
  conv_lhs => rw [← List.takeWhile_append_dropWhile (fun y => decide (key y = k)) l]
  rw [List.filter_append]
  have : (l.takeWhile (fun y => decide (key y = k))).filter (fun y => decide (key y = v)) = [] := by
    refine List.filter_eq_nil_iff.mpr fun y hy => ?_
    have := List.mem_takeWhile_imp hy
    simp only [decide_eq_true_eq] at this ⊢
    exact fun hv => hne (hv ▸ this ▸ rfl)
  rw [this, List.nil_append]

/-- The algorithm meets the declarative contract on key-sorted inputs. -/
theorem mergeJoin_eq_joinSpec (kl : α → κ) (kr : β → κ) (f : α → β → γ)
    (L : List α) (R : List β) (hL : KeySorted kl L) (hR : KeySorted kr R) :
    mergeJoin kl kr f L R = joinSpec kl kr f L R := by
  match L, R with
  | [], R => rw [mergeJoin, joinSpec_nil_left]
  | l :: ls, [] => rw [mergeJoin, joinSpec_nil_right]
  | l :: ls, r :: rs =>
    rcases lt_trichotomy (kl l) (kr r) with hlt | heq | hgt
    · rw [mergeJoin, if_pos hlt,
        mergeJoin_eq_joinSpec kl kr f ls (r :: rs) (keySorted_tail hL) hR,
        joinSpec_cons]
      have : (r :: rs).filter (fun y => decide (kr y = kl l)) = [] := by
        refine List.filter_eq_nil_iff.mpr fun y hy => ?_
        simp only [decide_eq_true_eq]
        intro he
        have hy' : kl l < kr y := by
          rcases List.mem_cons.mp hy with rfl | hy
          · exact hlt
          · exact lt_of_lt_of_le hlt (keySorted_head_le hR y hy)
        rw [he] at hy'
        exact absurd hy' (lt_irrefl _)
      rw [this, List.map_nil, List.nil_append]
    · rw [mergeJoin, if_neg (by simp [heq]), if_neg (by simp [heq])]
      have hR' : ∀ y ∈ r :: rs, kl l ≤ kr y := by
        intro y hy
        rcases List.mem_cons.mp hy with rfl | hy
        · exact le_of_eq heq
        · exact heq ▸ keySorted_head_le hR y hy
      have hL' : ∀ x ∈ l :: ls, kl l ≤ kl x := by
        intro x hx
        rcases List.mem_cons.mp hx with rfl | hx
        · exact le_refl _
        · exact keySorted_head_le hL x hx
      have hbuf : ∀ x ∈ (l :: ls).takeWhile (fun x => decide (kl x = kl l)),
          ((r :: rs).filter (fun y => decide (kr y = kl x))).map (f x)
            = ((r :: rs).takeWhile (fun y => decide (kr y = kl l))).map (f x) := by
        intro x hx
        have hxk : kl x = kl l := by
          have := List.mem_takeWhile_imp hx
          simpa using this
        rw [hxk, filter_eq_takeWhile_of_sorted hR hR']
      have hdropl : ∀ x ∈ (l :: ls).dropWhile (fun x => decide (kl x = kl l)),
          ((r :: rs).filter (fun y => decide (kr y = kl x))).map (f x)
            = (((r :: rs).dropWhile (fun y => decide (kr y = kl l))).filter
                (fun y => decide (kr y = kl x))).map (f x) := by
        intro x hx
        have hgtx : kl l < kl x := dropWhile_key_gt hL hL' x hx
        rw [filter_dropWhile_ne (ne_of_gt hgtx) (r :: rs)]
      calc
        ((l :: ls).takeWhile (fun x => decide (kl x = kl l))).flatMap
            (fun x => ((r :: rs).takeWhile (fun y => decide (kr y = kl l))).map (f x))
          ++ mergeJoin kl kr f
              ((l :: ls).dropWhile (fun x => decide (kl x = kl l)))
              ((r :: rs).dropWhile (fun y => decide (kr y = kl l)))
          = ((l :: ls).takeWhile (fun x => decide (kl x = kl l))).flatMap
              (fun x => ((r :: rs).filter (fun y => decide (kr y = kl x))).map (f x))
            ++ joinSpec kl kr f
                ((l :: ls).dropWhile (fun x => decide (kl x = kl l)))
                ((r :: rs).dropWhile (fun y => decide (kr y = kl l))) := by
            rw [mergeJoin_eq_joinSpec kl kr f _ _
              (keySorted_sublist (List.dropWhile_sublist _) hL)
              (keySorted_sublist (List.dropWhile_sublist _) hR)]
            rw [flatMap_congr hbuf]
        _ = joinSpec kl kr f (l :: ls) (r :: rs) := by
            unfold joinSpec
            conv_rhs => rw [← List.takeWhile_append_dropWhile
              (fun x => decide (kl x = kl l)) (l :: ls)]
            rw [List.flatMap_append, flatMap_congr hdropl]
    · rw [mergeJoin, if_neg (not_lt.mpr (le_of_lt hgt)), if_pos hgt,
        mergeJoin_eq_joinSpec kl kr f (l :: ls) rs hL (keySorted_tail hR)]
      unfold joinSpec
      refine flatMap_congr fun x hx => ?_
      have hxk : kr r < kl x := by
        rcases List.mem_cons.mp hx with rfl | hx
        · exact hgt
        · exact lt_of_lt_of_le hgt (keySorted_head_le hL x hx)
      rw [List.filter_cons, if_neg (by simp only [decide_eq_true_eq]; exact ne_of_lt hxk)]
  termination_by L.length + R.length
  decreasing_by
  · simp only [List.length_cons]; omega
  · have hl : ((l :: ls).dropWhile (fun x => decide (kl x = kl l))).length ≤ ls.length := by
      have : (l :: ls).dropWhile (fun x => decide (kl x = kl l))
          = ls.dropWhile (fun x => decide (kl x = kl l)) := by
        simp [List.dropWhile_cons]
      rw [this]; exact (List.dropWhile_sublist _).length_le
    have hr : ((r :: rs).dropWhile (fun y => decide (kr y = kl l))).length ≤ rs.length := by
      have : (r :: rs).dropWhile (fun y => decide (kr y = kl l))
          = rs.dropWhile (fun y => decide (kr y = kl l)) := by
        simp [List.dropWhile_cons, heq.symm]
      rw [this]; exact (List.dropWhile_sublist _).length_le
    simp only [List.length_cons]; omega
  · simp only [List.length_cons]; omega

/-- A general combiner factors through the plain pair join. -/
theorem joinSpec_map (kl : α → κ) (kr : β → κ) (f : α → β → γ)
    (L : List α) (R : List β) :
    joinSpec kl kr f L R
      = (joinSpec kl kr Prod.mk L R).map (fun p => f p.1 p.2) := by
  unfold joinSpec
  induction L with
  | nil => rfl
  | cons l ls ih =>
    simp only [List.flatMap_cons, List.map_append, ih, List.map_map]
    rfl

/-- Per-key result count of the declarative join: `N × M`. -/
theorem countP_joinSpec (kl : α → κ) (kr : β → κ) (L : List α) (R : List β) (k : κ) :
    (joinSpec kl kr Prod.mk L R).countP (fun p => decide (kl p.1 = k))
      = L.countP (fun x => decide (kl x = k)) * R.countP (fun y => decide (kr y = k)) := by
  induction L with
  | nil => simp [joinSpec]
  | cons l ls ih =>
    rw [joinSpec_cons, List.countP_append, ih]
    by_cases hl : kl l = k
    · have : ((R.filter (fun y => decide (kr y = kl l))).map (Prod.mk l)).countP
          (fun p => decide (kl p.1 = k)) = R.countP (fun y => decide (kr y = k)) := by
        rw [List.countP_map]
        have : ∀ y, ((fun p : α × β => decide (kl p.1 = k)) ∘ Prod.mk l) y = true := by
          intro y; simp [hl]
        calc ((R.filter (fun y => decide (kr y = kl l))).countP
              ((fun p : α × β => decide (kl p.1 = k)) ∘ Prod.mk l))
            = (R.filter (fun y => decide (kr y = kl l))).length := by
              rw [List.countP_eq_length]
              exact fun y _ => this y
          _ = R.countP (fun y => decide (kr y = k)) := by
              rw [← List.countP_eq_length_filter, hl]
      rw [this, List.countP_cons]
      simp only [hl, decide_eq_true_eq, if_pos]
      ring
    · have : ((R.filter (fun y => decide (kr y = kl l))).map (Prod.mk l)).countP
          (fun p => decide (kl p.1 = k)) = 0 := by
        rw [List.countP_eq_zero]
        intro p hp
        rcases List.mem_map.mp hp with ⟨y, _, rfl⟩
        simp [hl]
      rw [this, List.countP_cons]
      simp [hl]

/-- Total output size of the declarative join, as a sum over the keys
present on both sides. -/
theorem length_joinSpec (kl : α → κ) (kr : β → κ) (L : List α) (R : List β) :
    (joinSpec kl kr Prod.mk L R).length
      = ∑ k ∈ (L.map kl).toFinset ∩ (R.map kr).toFinset,
          L.countP (fun x => decide (kl x = k)) * R.countP (fun y => decide (kr y = k)) := by
  have h1 : (joinSpec kl kr Prod.mk L R).length
      = ((L.map kl).map (fun k => R.countP (fun y => decide (kr y = k)))).sum := by
    unfold joinSpec
    rw [List.length_flatMap, List.map_map]
    refine congrArg List.sum (List.map_congr_left fun x _ => ?_)
    simp [Function.comp, List.countP_eq_length_filter]
  rw [h1, Finset.sum_list_map_count]
  have h2 : ∀ k ∈ (L.map kl).toFinset,
      (L.map kl).count k • R.countP (fun y => decide (kr y = k))
        = L.countP (fun x => decide (kl x = k)) * R.countP (fun y => decide (kr y = k)) := by
    intro k _
    rw [smul_eq_mul]
    congr 1
    rw [List.count, List.countP_map]
    refine List.countP_congr fun x _ => ?_
    simp [Function.comp]
  rw [Finset.sum_congr rfl h2]
  refine (Finset.sum_subset Finset.inter_subset_left fun k hk hk' => ?_).symm
  have : k ∉ (R.map kr).toFinset := fun hmem => hk' (Finset.mem_inter.mpr ⟨hk, hmem⟩)
  have hz : R.countP (fun y => decide (kr y = k)) = 0 := by
    rw [List.countP_eq_zero]
    intro y hy
    simp only [decide_eq_true_eq]
    intro he
    exact this (List.mem_toFinset.mpr (List.mem_map.mpr ⟨y, hy, he⟩))
  rw [hz, Nat.mul_zero]

/-- Every emitted pair really joins: equal keys, both taken from the
inputs. -/
theorem mem_joinSpec (kl : α → κ) (kr : β → κ) {L : List α} {R : List β}
    {p : α × β} (hp : p ∈ joinSpec kl kr Prod.mk L R) :
    p.1 ∈ L ∧ p.2 ∈ R ∧ kl p.1 = kr p.2 := by
  unfold joinSpec at hp
  rcases List.mem_flatMap.mp hp with ⟨x, hx, hpx⟩
  rcases List.mem_map.mp hpx with ⟨y, hy, rfl⟩
  exact ⟨hx, (List.mem_filter.mp hy).1,
    ((decide_eq_true_eq).mp (List.mem_filter.mp hy).2).symm⟩

/-- The pairs of the declarative join come out with non-decreasing left
keys whenever the left input is key-sorted. -/
theorem joinSpec_keySorted (kl : α → κ) (kr : β → κ) {L : List α} (R : List β)
    (hL : KeySorted kl L) :
    KeySorted (fun p : α × β => kl p.1) (joinSpec kl kr Prod.mk L R) := by
  induction L with
  | nil => exact List.Pairwise.nil
  | cons l ls ih =>
    rw [joinSpec_cons]
    refine List.pairwise_append.mpr ⟨?_, ih (keySorted_tail hL), ?_⟩
    · refine List.pairwise_of_forall_mem_list fun a ha b hb => ?_
      rcases List.mem_map.mp ha with ⟨y, _, rfl⟩
      rcases List.mem_map.mp hb with ⟨z, _, rfl⟩
      exact le_refl _
    · intro a ha b hb
      rcases List.mem_map.mp ha with ⟨y, _, rfl⟩
      have := mem_joinSpec kl kr hb
      exact keySorted_head_le hL b.1 this.1

/-- All keys of a suffix obtained by dropping the `< k` prefix of a sorted
list lie at or above `k`. -/
theorem dropWhile_lt_key_ge {key : δ → κ} {k : κ} {l : List δ}
    (hs : KeySorted key l) :
    ∀ x ∈ l.dropWhile (fun y => decide (key y < k)), k ≤ key x := by
  induction l with
  | nil => intro x hx; simp [List.dropWhile] at hx
  | cons b bs ih =>
    by_cases hb : key b < k
    · rw [List.dropWhile_cons, if_pos (by simp [hb])]
      exact ih (keySorted_tail hs)
    · rw [List.dropWhile_cons, if_neg (by simp [hb])]
      intro x hx
      rcases List.mem_cons.mp hx with rfl | hx
      · exact not_lt.mp hb
      · exact le_trans (not_lt.mp hb) (keySorted_head_le hs x hx)

/-- A list with sorted keys splits around any key `k` into a strictly
smaller prefix, the contiguous `k`-run, and a strictly larger suffix. -/
theorem sorted_split (key : δ → κ) (xs : List δ) (h : KeySorted key xs) (k : κ) :
    ∃ pre mid post, xs = pre ++ mid ++ post
      ∧ (∀ p ∈ pre, key p < k) ∧ (∀ p ∈ mid, key p = k) ∧ (∀ p ∈ post, k < key p) := by
  refine ⟨xs.takeWhile (fun y => decide (key y < k)),
    (xs.dropWhile (fun y => decide (key y < k))).takeWhile (fun y => decide (key y = k)),
    (xs.dropWhile (fun y => decide (key y < k))).dropWhile (fun y => decide (key y = k)),
    ?_, ?_, ?_, ?_⟩
  · rw [List.append_assoc, List.takeWhile_append_dropWhile,
      List.takeWhile_append_dropWhile]
  · intro p hp
    simpa using List.mem_takeWhile_imp hp
  · intro p hp
    simpa using List.mem_takeWhile_imp hp
  · exact dropWhile_key_gt
      (keySorted_sublist (List.dropWhile_sublist _) h)
      (dropWhile_lt_key_ge h)

theorem mergeJoin_nil_left (kl : α → κ) (kr : β → κ) (f : α → β → γ) (R : List β) :
    mergeJoin kl kr f [] R = [] := by
  rw [mergeJoin]

theorem mergeJoin_nil_right (kl : α → κ) (kr : β → κ) (f : α → β → γ) (L : List α) :
    mergeJoin kl kr f L [] = [] := by
  cases L with
  | nil => rw [mergeJoin]
  | cons l ls => rw [mergeJoin]


/-- C1: for key-sorted inputs the join emits exactly `N × M` results per
key (`N`, `M` the per-side counts of that key); an empty side yields no
results at all; and the total output size is the sum of `N × M` over the
keys present on both sides. -/
theorem claim_C1_counts (kl : α → κ) (kr : β → κ) (L : List α) (R : List β)
    (hL : KeySorted kl L) (hR : KeySorted kr R) :
    (∀ k : κ, (mergeJoin kl kr Prod.mk L R).countP (fun p => decide (kl p.1 = k))
        = L.countP (fun x => decide (kl x = k)) * R.countP (fun y => decide (kr y = k)))
    ∧ (∀ R' : List β, mergeJoin kl kr Prod.mk ([] : List α) R' = [])
    ∧ (∀ L' : List α, mergeJoin kl kr Prod.mk L' ([] : List β) = [])
    ∧ (mergeJoin kl kr Prod.mk L R).length
        = ∑ k ∈ (L.map kl).toFinset ∩ (R.map kr).toFinset,
            L.countP (fun x => decide (kl x = k)) * R.countP (fun y => decide (kr y = k)) := by
  refine ⟨fun k => ?_, fun R' => mergeJoin_nil_left kl kr Prod.mk R',
    fun L' => mergeJoin_nil_right kl kr Prod.mk L', ?_⟩
  · rw [mergeJoin_eq_joinSpec kl kr Prod.mk L R hL hR, countP_joinSpec]
  · rw [mergeJoin_eq_joinSpec kl kr Prod.mk L R hL hR, length_joinSpec]

/-- Witness for C1 on the spec's scenario-1 data. -/
theorem claim_C1_counts_witness :
    KeySorted (Prod.fst : Nat × String → Nat) [(1, "a"), (1, "b"), (2, "c")]
    ∧ KeySorted (Prod.fst : Nat × String → Nat) [(1, "x"), (2, "y"), (2, "z")]
    ∧ (mergeJoin (Prod.fst : Nat × String → Nat) Prod.fst Prod.mk
          [(1, "a"), (1, "b"), (2, "c")] [(1, "x"), (2, "y"), (2, "z")]).countP
        (fun p => decide (p.1.1 = 1))
      = ([(1, "a"), (1, "b"), (2, "c")] : List (Nat × String)).countP (fun x => decide (x.1 = 1))
        * ([(1, "x"), (2, "y"), (2, "z")] : List (Nat × String)).countP (fun y => decide (y.1 = 1)) :=
  ⟨by decide, by decide,
    (claim_C1_counts Prod.fst Prod.fst _ _ (by decide) (by decide)).1 1⟩

/-- C2: for key-sorted inputs the emitted results carry non-decreasing
keys, every result's key occurs in both inputs (and its two components
agree on the key), and inputs with no overlapping keys join to nothing. -/
theorem claim_C2_key_order (kl : α → κ) (kr : β → κ) (L : List α) (R : List β)
    (hL : KeySorted kl L) (hR : KeySorted kr R) :
    KeySorted (fun p : α × β => kl p.1) (mergeJoin kl kr Prod.mk L R)
    ∧ (∀ p ∈ mergeJoin kl kr Prod.mk L R,
        kl p.1 = kr p.2 ∧ kl p.1 ∈ L.map kl ∧ kr p.2 ∈ R.map kr)
    ∧ ((∀ k ∈ L.map kl, k ∉ R.map kr) → mergeJoin kl kr Prod.mk L R = []) := by
  rw [mergeJoin_eq_joinSpec kl kr Prod.mk L R hL hR]
  refine ⟨joinSpec_keySorted kl kr R hL, fun p hp => ?_, fun hdisj => ?_⟩
  · obtain ⟨h1, h2, h3⟩ := mem_joinSpec kl kr hp
    exact ⟨h3, List.mem_map_of_mem kl h1, List.mem_map_of_mem kr h2⟩
  · rw [List.eq_nil_iff_forall_not_mem]
    intro p hp
    obtain ⟨h1, h2, h3⟩ := mem_joinSpec kl kr hp
    exact hdisj (kl p.1) (List.mem_map_of_mem kl h1)
      (h3 ▸ List.mem_map_of_mem kr h2)

/-- Witness for C2 on the spec's scenario-3 data (disjoint keys). -/
theorem claim_C2_key_order_witness :
    KeySorted (Prod.fst : Nat × String → Nat) [(1, "a")]
    ∧ KeySorted (Prod.fst : Nat × String → Nat) [(2, "x")]
    ∧ ((∀ k ∈ ([(1, "a")] : List (Nat × String)).map Prod.fst,
          k ∉ ([(2, "x")] : List (Nat × String)).map Prod.fst) →
        mergeJoin (Prod.fst : Nat × String → Nat) Prod.fst Prod.mk [(1, "a")] [(2, "x")] = []) :=
  ⟨by decide, by decide,
    (claim_C2_key_order Prod.fst Prod.fst _ _ (by decide) (by decide)).2.2⟩

/-- C3: for key-sorted inputs the join output is exactly the nested
iteration (each left element in order, against the full matching right
group in order), and the results for any key `k` form one contiguous block
located after all smaller-key results and before all larger-key ones. -/
theorem claim_C3_nested_order (kl : α → κ) (kr : β → κ) (f : α → β → γ)
    (L : List α) (R : List β) (hL : KeySorted kl L) (hR : KeySorted kr R) :
    mergeJoin kl kr f L R
      = L.flatMap (fun x => (R.filter (fun y => decide (kr y = kl x))).map (f x))
    ∧ ∀ k : κ, ∃ pre mid post, mergeJoin kl kr Prod.mk L R = pre ++ mid ++ post
        ∧ (∀ p ∈ pre, kl p.1 < k) ∧ (∀ p ∈ mid, kl p.1 = k)
        ∧ (∀ p ∈ post, k < kl p.1) := by
  refine ⟨mergeJoin_eq_joinSpec kl kr f L R hL hR, fun k => ?_⟩
  rw [mergeJoin_eq_joinSpec kl kr Prod.mk L R hL hR]
  exact sorted_split (fun p : α × β => kl p.1) _ (joinSpec_keySorted kl kr R hL) k

/-- Witness for C3 on the spec's scenario-4 data. -/
theorem claim_C3_nested_order_witness :
    KeySorted (Prod.fst : Nat × String → Nat) [(1, "a"), (2, "b")]
    ∧ KeySorted (Prod.fst : Nat × String → Nat) [(1, "x"), (1, "y"), (2, "z")]
    ∧ mergeJoin (Prod.fst : Nat × String → Nat) Prod.fst (fun a b => (a.2, b.2))
          [(1, "a"), (2, "b")] [(1, "x"), (1, "y"), (2, "z")]
      = ([(1, "a"), (2, "b")] : List (Nat × String)).flatMap
          (fun x => (([(1, "x"), (1, "y"), (2, "z")] : List (Nat × String)).filter
            (fun y => decide (y.1 = x.1))).map (fun y => (x.2, y.2))) :=
  ⟨by decide, by decide,
    (claim_C3_nested_order Prod.fst Prod.fst (fun a b => (a.2, b.2)) _ _
      (by decide) (by decide)).1⟩

/-- C4: the two concrete spec scenarios with duplicate keys produce exactly
the listed results, in the listed order. -/
theorem claim_C4_scenarios :
    mergeJoin (Prod.fst : Nat × String → Nat) Prod.fst (fun a b => (a.2, b.2))
        [(1, "a"), (1, "b"), (2, "c")] [(1, "x"), (2, "y"), (2, "z")]
      = [("a", "x"), ("b", "x"), ("c", "y"), ("c", "z")]
    ∧ mergeJoin (Prod.fst : Nat × String → Nat) Prod.fst (fun a b => (a.2, b.2))
        [(1, "a"), (2, "b")] [(1, "x"), (1, "y"), (2, "z")]
      = [("a", "x"), ("a", "y"), ("b", "z")] := by
  constructor
  · rw [mergeJoin_eq_joinSpec _ _ _ _ _ (by decide) (by decide)]
    rfl
  · rw [mergeJoin_eq_joinSpec _ _ _ _ _ (by decide) (by decide)]
    rfl


theorem run_nil_left (kl : α → κ) (kr : β → κ) (f : α → β → γ)
    (right buf pend : List β) :
    run kl kr f ⟨[], right, none, buf, pend⟩ = [] := by
  rw [run]

/-- Replaying a buffered group: from a group state whose current left
element carries the group key, the iterator first drains the pending
buffer for that element, then replays the whole buffer for every further
equal-key left element, then leaves group mode past the left group. -/
theorem run_group (kl : α → κ) (kr : β → κ) (f : α → β → γ)
    (right buf : List β) (k : κ) (l : α) (ls : List α) (pend : List β)
    (hl : kl l = k) :
    run kl kr f ⟨l :: ls, right, some k, buf, pend⟩
      = pend.map (f l)
        ++ (ls.takeWhile (fun x => decide (kl x = k))).flatMap (fun x => buf.map (f x))
        ++ run kl kr f ⟨ls.dropWhile (fun x => decide (kl x = k)), right, none, [], []⟩ := by
  match pend with
  | r :: ps =>
    rw [run, run_group kl kr f right buf k l ls ps hl]
    simp [List.map_cons]
  | [] =>
    match ls with
    | [] =>
      rw [run]
      simp [List.takeWhile_nil, List.dropWhile_nil, run_nil_left]
    | l' :: ls' =>
      by_cases hk : kl l' = k
      · rw [run]
        simp only [hk, if_pos]
        rw [run_group kl kr f right buf k l' ls' buf hk]
        rw [List.takeWhile_cons, if_pos (by simp [hk]), List.dropWhile_cons,
          if_pos (by simp [hk]), List.flatMap_cons]
        simp [List.append_assoc]
      · rw [run]
        simp only [hk, if_neg, if_false]
        rw [List.takeWhile_cons, if_neg (by simp [hk]), List.dropWhile_cons,
          if_neg (by simp [hk])]
        simp
  termination_by (ls.length, pend.length)
  decreasing_by
  · apply Prod.Lex.right
    simp only [List.length_cons]; omega
  · apply Prod.Lex.left
    simp only [List.length_cons]; omega

/-- Draining the pull iterator from a fresh lookahead state computes the
merge-join algorithm (for any residual buffer fields, which lookahead mode
ignores). -/
theorem run_state_eq_mergeJoin (kl : α → κ) (kr : β → κ) (f : α → β → γ)
    (L : List α) (R : List β) (buf pend : List β) :
    run kl kr f ⟨L, R, none, buf, pend⟩ = mergeJoin kl kr f L R := by
  match L, R with
  | [], R =>
    rw [run, mergeJoin]
  | l :: ls, [] =>
    rw [run, mergeJoin]
  | l :: ls, r :: rs =>
    rcases lt_trichotomy (kl l) (kr r) with hlt | heq | hgt
    · rw [run, mergeJoin, if_pos hlt, if_pos hlt,
        run_state_eq_mergeJoin kl kr f ls (r :: rs) [] []]
    · have h1 : ¬kl l < kr r := by rw [heq]; exact lt_irrefl _
      have h2 : ¬kr r < kl l := by rw [heq]; exact lt_irrefl _
      have hlt2 : (l :: ls).takeWhile (fun x => decide (kl x = kl l))
          = l :: ls.takeWhile (fun x => decide (kl x = kl l)) := by
        rw [List.takeWhile_cons, if_pos (by simp)]
      have hld : (l :: ls).dropWhile (fun x => decide (kl x = kl l))
          = ls.dropWhile (fun x => decide (kl x = kl l)) := by
        rw [List.dropWhile_cons, if_pos (by simp)]
      rw [run, if_neg h1, if_neg h2,
        run_group kl kr f _ _ (kl l) l ls _ rfl,
        run_state_eq_mergeJoin kl kr f _ _ [] [],
        mergeJoin, if_neg h1, if_neg h2, hlt2, hld, List.flatMap_cons, List.append_assoc]
    · rw [run, mergeJoin, if_neg (not_lt.mpr (le_of_lt hgt)), if_pos hgt,
        if_neg (not_lt.mpr (le_of_lt hgt)), if_pos hgt,
        run_state_eq_mergeJoin kl kr f (l :: ls) rs [] []]
  termination_by L.length + R.length
  decreasing_by
  · simp only [List.length_cons]; omega
  · have hl : (ls.dropWhile (fun x => decide (kl x = kl l))).length ≤ ls.length :=
      (List.dropWhile_sublist _).length_le
    have hr : ((r :: rs).dropWhile (fun y => decide (kr y = kl l))).length ≤ rs.length := by
      have : (r :: rs).dropWhile (fun y => decide (kr y = kl l))
          = rs.dropWhile (fun y => decide (kr y = kl l)) := by
        simp [List.dropWhile_cons, heq.symm]
      rw [this]; exact (List.dropWhile_sublist _).length_le
    simp only [List.length_cons]; omega
  · simp only [List.length_cons]; omega

/-- `run` is exactly the iteration of `next`: drain one pull, cons the
result, recurse on the successor state. -/
theorem run_eq_next (kl : α → κ) (kr : β → κ) (f : α → β → γ) (s : JoinIt α β κ) :
    run kl kr f s
      = (match next kl kr f s with
         | none => []
         | some (x, s') => x :: run kl kr f s') := by
  match s with
  | ⟨l :: ls, right, some k, buf, r :: ps⟩ => rw [run, next]
  | ⟨[], right, some k, buf, r :: ps⟩ => rw [run, next]
  | ⟨l :: ls, right, some k, buf, []⟩ =>
    match ls with
    | [] => rw [run, next]
    | l' :: ls' =>
      by_cases hk : kl l' = k
      · rw [run, next]
        simp only [hk, if_pos]
        exact run_eq_next kl kr f ⟨l' :: ls', right, some k, buf, buf⟩
      · rw [run, next]
        simp only [hk, if_neg, if_false]
        exact run_eq_next kl kr f ⟨l' :: ls', right, none, [], []⟩
  | ⟨[], right, some k, buf, []⟩ => rw [run, next]
  | ⟨[], right, none, buf, pend⟩ => rw [run, next]
  | ⟨l :: ls, [], none, buf, pend⟩ => rw [run, next]
  | ⟨l :: ls, r :: rs, none, buf, pend⟩ =>
    rcases lt_trichotomy (kl l) (kr r) with hlt | heq | hgt
    · rw [run, next, if_pos hlt, if_pos hlt]
      exact run_eq_next kl kr f ⟨ls, r :: rs, none, [], []⟩
    · have h1 : ¬kl l < kr r := by rw [heq]; exact lt_irrefl _
      have h2 : ¬kr r < kl l := by rw [heq]; exact lt_irrefl _
      rw [run, next, if_neg h1, if_neg h2, if_neg h1, if_neg h2]
      exact run_eq_next kl kr f _
    · rw [run, next, if_neg (not_lt.mpr (le_of_lt hgt)), if_pos hgt,
        if_neg (not_lt.mpr (le_of_lt hgt)), if_pos hgt]
      exact run_eq_next kl kr f ⟨l :: ls, rs, none, [], []⟩
  termination_by (coreMeasure s, s.pend.length)
  decreasing_by
  · apply Prod.Lex.left
    simp only [coreMeasure, List.length_cons]; omega
  · apply Prod.Lex.left
    simp only [coreMeasure, List.length_cons]; omega
  · apply Prod.Lex.left
    simp only [coreMeasure, List.length_cons]; omega
  · apply Prod.Lex.left
    have : ((r :: rs).dropWhile (fun y => decide (kr y = kl l))).length ≤ rs.length := by
      have : (r :: rs).dropWhile (fun y => decide (kr y = kl l))
          = rs.dropWhile (fun y => decide (kr y = kl l)) := by
        simp [List.dropWhile_cons, heq.symm]
      rw [this]; exact (List.dropWhile_sublist _).length_le
    simp only [coreMeasure, List.length_cons]; omega
  · apply Prod.Lex.left
    simp only [coreMeasure, List.length_cons]; omega


/-- C5: the `Joinable` capability's `join` method produces exactly the
result sequence of the core join: the pull iterator it constructs drains
to precisely `mergeJoin` over the two produced sequences with the same
key extractors and combiner; moreover the drained sequence is exactly the
iteration of the pull `next` steps. -/
theorem claim_C5_joinable_refines {σ : Type z} {τ : Type y}
    (J : Joinable σ α) (K : Joinable τ β) (kl : α → κ) (kr : β → κ)
    (f : α → β → γ) (s : σ) (t : τ) :
    Joinable.join J K kl kr f s t = mergeJoin kl kr f (J.produce s) (K.produce t)
    ∧ ∀ u : JoinIt α β κ,
        run kl kr f u
          = (match next kl kr f u with
             | none => []
             | some (x, u') => x :: run kl kr f u') :=
  ⟨run_state_eq_mergeJoin kl kr f (J.produce s) (K.produce t) [] [],
   fun u => run_eq_next kl kr f u⟩

/-- C7: once either sequence is exhausted and no buffered group work is
pending, the join is exhausted: the pull returns the end-of-sequence
signal and draining from such a state yields nothing, ever (the state is
terminal — `next` is a pure function of it, so every subsequent pull
returns `none` as well). -/
theorem claim_C7_exhaustion (kl : α → κ) (kr : β → κ) (f : α → β → γ)
    (s : JoinIt α β κ)
    (h : (s.left = [] ∨ s.right = []) ∧ s.groupKey = none) :
    next kl kr f s = none ∧ run kl kr f s = [] := by
  obtain ⟨h1, h2⟩ := h
  obtain ⟨left, right, gk, buf, pend⟩ := s
  simp only at h1 h2
  subst h2
  rcases h1 with rfl | rfl
  · exact ⟨by rw [next], by rw [run]⟩
  · cases left with
    | nil => exact ⟨by rw [next], by rw [run]⟩
    | cons l ls => exact ⟨by rw [next], by rw [run]⟩

/-- Witness for C7: a freshly initialized join with an empty left input is
already exhausted. -/
theorem claim_C7_exhaustion_witness :
    (((JoinIt.init [] [(1, "x")] : JoinIt (Nat × String) (Nat × String) Nat).left = []
        ∨ (JoinIt.init ([] : List (Nat × String)) [(1, "x")] : JoinIt (Nat × String) (Nat × String) Nat).right = [])
      ∧ (JoinIt.init ([] : List (Nat × String)) [(1, "x")] : JoinIt (Nat × String) (Nat × String) Nat).groupKey = none)
    ∧ next (Prod.fst : Nat × String → Nat) Prod.fst Prod.mk
        (JoinIt.init ([] : List (Nat × String)) [(1, "x")]) = none
    ∧ run (Prod.fst : Nat × String → Nat) Prod.fst Prod.mk
        (JoinIt.init ([] : List (Nat × String)) [(1, "x")]) = [] :=
  ⟨⟨Or.inl rfl, rfl⟩,
   claim_C7_exhaustion Prod.fst Prod.fst Prod.mk _ ⟨Or.inl rfl, rfl⟩⟩

/-- C8: the join is deterministic in its inputs — rerunning it over two
freshly produced copies of the same logical sequences (equal element
lists, same key extractors and combiner) yields the identical result
sequence, both for the drained pull iterator and for the core
algorithm. -/
theorem claim_C8_rerun (kl : α → κ) (kr : β → κ) (f : α → β → γ)
    (L L' : List α) (R R' : List β) (hL : L = L') (hR : R = R') :
    run kl kr f (JoinIt.init L R) = run kl kr f (JoinIt.init L' R')
    ∧ mergeJoin kl kr f L R = mergeJoin kl kr f L' R' := by
  subst hL
  subst hR
  exact ⟨rfl, rfl⟩

/-- Witness for C8 on the spec's scenario-1 data. -/
theorem claim_C8_rerun_witness :
    (([(1, "a"), (1, "b"), (2, "c")] : List (Nat × String)) = [(1, "a"), (1, "b"), (2, "c")]
      ∧ ([(1, "x"), (2, "y"), (2, "z")] : List (Nat × String)) = [(1, "x"), (2, "y"), (2, "z")])
    ∧ mergeJoin (Prod.fst : Nat × String → Nat) Prod.fst (fun a b => (a.2, b.2))
        [(1, "a"), (1, "b"), (2, "c")] [(1, "x"), (2, "y"), (2, "z")]
      = mergeJoin (Prod.fst : Nat × String → Nat) Prod.fst (fun a b => (a.2, b.2))
          [(1, "a"), (1, "b"), (2, "c")] [(1, "x"), (2, "y"), (2, "z")] :=
  ⟨⟨rfl, rfl⟩,
   (claim_C8_rerun Prod.fst Prod.fst (fun a b => (a.2, b.2)) _ _ _ _ rfl rfl).2⟩


/-- A successful pull preserves the buffer invariant. -/
theorem next_bufInv {R : List β} (kl : α → κ) (kr : β → κ) (f : α → β → γ)
    (s : JoinIt α β κ) {x : γ} {s' : JoinIt α β κ}
    (hI : BufInv kr R s) (h : next kl kr f s = some (x, s')) :
    BufInv kr R s' := by
  match s with
  | ⟨l :: ls, right, some k, buf, r :: ps⟩ =>
    rw [next] at h
    simp only [Option.some.injEq, Prod.mk.injEq] at h
    obtain ⟨-, rfl⟩ := h
    exact ⟨hI.1, hI.2.1, hI.2.2.1, (List.sublist_cons_self r ps).trans hI.2.2.2⟩
  | ⟨[], right, some k, buf, r :: ps⟩ =>
    rw [next] at h
    exact absurd h (by simp)
  | ⟨l :: ls, right, some k, buf, []⟩ =>
    match ls with
    | [] =>
      rw [next] at h
      exact absurd h (by simp)
    | l' :: ls' =>
      by_cases hk : kl l' = k
      · rw [next] at h
        simp only [hk, if_pos] at h
        exact next_bufInv kl kr f ⟨l' :: ls', right, some k, buf, buf⟩
          ⟨hI.1, hI.2.1, hI.2.2.1, List.Sublist.refl buf⟩ h
      · rw [next] at h
        simp only [hk, if_neg, if_false] at h
        exact next_bufInv kl kr f ⟨l' :: ls', right, none, [], []⟩
          ⟨hI.1, List.nil_sublist R, fun z hz => absurd hz (List.not_mem_nil z),
            List.Sublist.refl []⟩ h
  | ⟨[], right, some k, buf, []⟩ =>
    rw [next] at h
    exact absurd h (by simp)
  | ⟨[], right, none, buf, pend⟩ =>
    rw [next] at h
    exact absurd h (by simp)
  | ⟨l :: ls, [], none, buf, pend⟩ =>
    rw [next] at h
    exact absurd h (by simp)
  | ⟨l :: ls, r :: rs, none, buf, pend⟩ =>
    rcases lt_trichotomy (kl l) (kr r) with hlt | heq | hgt
    · rw [next, if_pos hlt] at h
      exact next_bufInv kl kr f ⟨ls, r :: rs, none, [], []⟩
        ⟨hI.1, List.nil_sublist R, fun z hz => absurd hz (List.not_mem_nil z),
          List.Sublist.refl []⟩ h
    · have h1 : ¬kl l < kr r := by rw [heq]; exact lt_irrefl _
      have h2 : ¬kr r < kl l := by rw [heq]; exact lt_irrefl _
      rw [next, if_neg h1, if_neg h2] at h
      refine next_bufInv kl kr f _ ⟨?_, ?_, ?_, ?_⟩ h
      · exact (List.dropWhile_suffix _).trans hI.1
      · exact (List.takeWhile_sublist _).trans hI.1.sublist
      · intro z hz w hw
        have hz' := List.mem_takeWhile_imp hz
        have hw' := List.mem_takeWhile_imp hw
        simp only [decide_eq_true_eq] at hz' hw'
        rw [hz', hw']
      · exact List.Sublist.refl _
    · rw [next, if_neg (not_lt.mpr (le_of_lt hgt)), if_pos hgt] at h
      exact next_bufInv kl kr f ⟨l :: ls, rs, none, [], []⟩
        ⟨(List.suffix_cons r rs).trans hI.1, List.nil_sublist R,
          fun z hz => absurd hz (List.not_mem_nil z), List.Sublist.refl []⟩ h
  termination_by coreMeasure s
  decreasing_by
  · simp only [coreMeasure, List.length_cons]; omega
  · simp only [coreMeasure, List.length_cons]; omega
  · simp only [coreMeasure, List.length_cons]; omega
  · have : ((r :: rs).dropWhile (fun y => decide (kr y = kl l))).length ≤ rs.length := by
      have : (r :: rs).dropWhile (fun y => decide (kr y = kl l))
          = rs.dropWhile (fun y => decide (kr y = kl l)) := by
        simp [List.dropWhile_cons, heq.symm]
      rw [this]; exact (List.dropWhile_sublist _).length_le
    simp only [coreMeasure, List.length_cons]; omega
  · simp only [coreMeasure, List.length_cons]; omega

/-- The buffer invariant holds along every reachable state. -/
theorem reach_bufInv {R : List β} (kl : α → κ) (kr : β → κ) (f : α → β → γ)
    {s t : JoinIt α β κ} (hr : Reach kl kr f s t) (hI : BufInv kr R s) :
    BufInv kr R t := by
  induction hr with
  | refl => exact hI
  | step h1 h2 ih => exact next_bufInv kl kr f _ ih h2

theorem le_foldr_max {l : List Nat} {a : Nat} (h : a ∈ l) : a ≤ l.foldr max 0 := by
  induction l with
  | nil => cases h
  | cons b t ih =>
    rcases List.mem_cons.mp h with rfl | h'
    · exact le_max_left _ _
    · exact le_trans (ih h') (le_max_right _ _)

/-- An equal-key sublist of `R` is no longer than `R`'s largest
key-group. -/
theorem sublist_eqkey_length_le (kr : β → κ) {buf R : List β}
    (hsub : buf.Sublist R) (hkeys : ∀ x ∈ buf, ∀ y ∈ buf, kr x = kr y) :
    buf.length ≤ maxGroupSize kr R := by
  cases buf with
  | nil => exact Nat.zero_le _
  | cons b bs =>
    have hmem : b ∈ b :: bs := List.mem_cons_self b bs
    have hfs : (b :: bs).filter (fun z => decide (kr z = kr b)) = b :: bs :=
      List.filter_eq_self.mpr fun z hz => by simp [hkeys z hz b hmem]
    have h1 : (b :: bs).length ≤ R.countP (fun z => decide (kr z = kr b)) := by
      rw [List.countP_eq_length_filter]
      calc (b :: bs).length = ((b :: bs).filter (fun z => decide (kr z = kr b))).length := by
            rw [hfs]
        _ ≤ (R.filter (fun z => decide (kr z = kr b))).length :=
            (hsub.filter _).length_le
    have hbR : b ∈ R := hsub.subset hmem
    exact le_trans h1 (le_foldr_max (List.mem_map_of_mem _ hbR))

/-- C9: throughout any join, the extra buffering held by the iterator — the
buffered right group and its replay remainder — is bounded by the size of
the largest single key-group of the buffered (right) side, independent of
the total size of either input; the inputs themselves are never
materialized into the state beyond the cursors. -/
theorem claim_C9_buffer_bound (kl : α → κ) (kr : β → κ) (f : α → β → γ)
    (L : List α) (R : List β) (s : JoinIt α β κ)
    (h : Reach kl kr f (JoinIt.init L R) s) :
    s.buf.length ≤ maxGroupSize kr R ∧ s.pend.length ≤ maxGroupSize kr R := by
  have hI : BufInv kr R s := reach_bufInv kl kr f h
    ⟨List.suffix_refl R, List.nil_sublist R,
      fun z hz => absurd hz (List.not_mem_nil z), List.Sublist.refl []⟩
  refine ⟨sublist_eqkey_length_le kr hI.2.1 hI.2.2.1, ?_⟩
  exact le_trans hI.2.2.2.length_le (sublist_eqkey_length_le kr hI.2.1 hI.2.2.1)

/-- Witness for C9 at the initial state of a small join. -/
theorem claim_C9_buffer_bound_witness :
    Reach (Prod.fst : Nat × String → Nat) Prod.fst Prod.mk
        (JoinIt.init [(1, "a")] [(1, "x")]) (JoinIt.init [(1, "a")] [(1, "x")])
    ∧ (JoinIt.init ([(1, "a")] : List (Nat × String))
        ([(1, "x")] : List (Nat × String)) : JoinIt (Nat × String) (Nat × String) Nat).buf.length
      ≤ maxGroupSize (Prod.fst : Nat × String → Nat) [(1, "x")] :=
  ⟨Reach.refl _,
   (claim_C9_buffer_bound Prod.fst Prod.fst Prod.mk [(1, "a")] [(1, "x")] _ (Reach.refl _)).1⟩

theorem foldl_pairs {σ : Type z} (f : α → β → σ → σ) (lgrp : List α)
    (buf : List β) (s : σ) :
    (lgrp.flatMap (fun x => buf.map (Prod.mk x))).foldl (fun a p => f p.1 p.2 a) s
      = lgrp.foldl (fun acc x => buf.foldl (fun a y => f x y a) acc) s := by
  induction lgrp generalizing s with
  | nil => rfl
  | cons x xs ih =>
    simp only [List.flatMap_cons, List.foldl_append, List.foldl_map, List.foldl_cons]
    exact ih _

theorem foldl_append_singleton (g : α → γ) (l : List α) (acc : List γ) :
    l.foldl (fun a x => a ++ [g x]) acc = acc ++ l.map g := by
  induction l generalizing acc with
  | nil => simp
  | cons x xs ih =>
    simp only [List.foldl_cons, List.map_cons, ih]
    simp

/-- The push driver threads the callback state through exactly the core
join's results, in order. -/
theorem join_it_foldl {σ : Type z} (i : List α) (j : List β)
    (ki : α → κ) (kj : β → κ) (f : α → β → σ → σ) (s : σ) :
    join_it i j ki kj f s
      = (mergeJoin ki kj Prod.mk i j).foldl (fun a p => f p.1 p.2 a) s := by
  match i, j with
  | [], j =>
    rw [join_it, mergeJoin, List.foldl_nil]
  | l :: ls, [] =>
    rw [join_it, mergeJoin, List.foldl_nil]
  | l :: ls, r :: rs =>
    rcases lt_trichotomy (ki l) (kj r) with hlt | heq | hgt
    · rw [join_it, mergeJoin, if_pos hlt, if_pos hlt,
        join_it_foldl ls (r :: rs) ki kj f s]
    · have h1 : ¬ki l < kj r := by rw [heq]; exact lt_irrefl _
      have h2 : ¬kj r < ki l := by rw [heq]; exact lt_irrefl _
      rw [join_it, mergeJoin, if_neg h1, if_neg h2, if_neg h1, if_neg h2,
        join_it_foldl _ _ ki kj f _, List.foldl_append, foldl_pairs]
    · rw [join_it, mergeJoin, if_neg (not_lt.mpr (le_of_lt hgt)), if_pos hgt,
        if_neg (not_lt.mpr (le_of_lt hgt)), if_pos hgt,
        join_it_foldl (l :: ls) rs ki kj f s]
  termination_by i.length + j.length
  decreasing_by
  · simp only [List.length_cons]; omega
  · have hl : ((l :: ls).dropWhile (fun x => decide (ki x = ki l))).length ≤ ls.length := by
      have : (l :: ls).dropWhile (fun x => decide (ki x = ki l))
          = ls.dropWhile (fun x => decide (ki x = ki l)) := by
        simp [List.dropWhile_cons]
      rw [this]; exact (List.dropWhile_sublist _).length_le
    have hr : ((r :: rs).dropWhile (fun y => decide (kj y = ki l))).length ≤ rs.length := by
      have : (r :: rs).dropWhile (fun y => decide (kj y = ki l))
          = rs.dropWhile (fun y => decide (kj y = ki l)) := by
        simp [List.dropWhile_cons, heq.symm]
      rw [this]; exact (List.dropWhile_sublist _).length_le
    simp only [List.length_cons]; omega
  · simp only [List.length_cons]; omega

/-- C10: the push-based entry point returns nothing but the threaded
callback state — its entire output is the sequence of invocations of the
caller-supplied `f`, one per matched pair in join order, and no collection
of results is returned: instantiating the callback state with a recording
list shows the invocations are exactly the join's matched pairs. -/
theorem claim_C10_push_only (i : List α) (j : List β) (ki : α → κ) (kj : β → κ) :
    (∀ (f : α → β → (List (α × β) → List (α × β)) → (List (α × β) → List (α × β)))
        (s : List (α × β) → List (α × β)),
        join_it i j ki kj f s
          = (mergeJoin ki kj Prod.mk i j).foldl (fun a p => f p.1 p.2 a) s)
    ∧ join_it i j ki kj (fun a b acc => acc ++ [(a, b)]) []
        = mergeJoin ki kj Prod.mk i j := by
  refine ⟨fun f s => join_it_foldl i j ki kj f s, ?_⟩
  rw [join_it_foldl, foldl_append_singleton (fun p : α × β => (p.1, p.2))]
  simp


theorem emitRowE_pure {ε : Type z} (g : α → β → γ) (x : α) (buf : List β) :
    emitRowE (fun a b => (Except.ok (g a b) : Except ε γ)) x buf
      = (buf.map (g x), none) := by
  induction buf with
  | nil => rfl
  | cons y ys ih => simp [emitRowE, ih]

theorem emitGroupE_pure {ε : Type z} (g : α → β → γ) (buf : List β) (lgrp : List α) :
    emitGroupE (fun a b => (Except.ok (g a b) : Except ε γ)) buf lgrp
      = (lgrp.flatMap (fun x => buf.map (g x)), none) := by
  induction lgrp with
  | nil => rfl
  | cons x xs ih => simp [emitGroupE, emitRowE_pure, ih]

theorem emitRowE_collectE {ε : Type z} (f : α → β → Except ε γ) (x : α) (buf : List β) :
    emitRowE f x buf = collectE (buf.map (f x)) := by
  induction buf with
  | nil => rfl
  | cons y ys ih =>
    cases hfy : f x y with
    | error e => simp [emitRowE, collectE, hfy]
    | ok g => simp [emitRowE, collectE, hfy, ih]

theorem collectE_cons_ok {ε : Type z} (g : γ) (t : List (Except ε γ)) :
    collectE (Except.ok g :: t) = (g :: (collectE t).1, (collectE t).2) := rfl

theorem collectE_cons_err {ε : Type z} (e : ε) (t : List (Except ε γ)) :
    collectE (Except.error e :: t) = ([], some e) := rfl

theorem collectE_append_err {ε : Type z} {xs : List (Except ε γ)} {e : ε}
    (h : (collectE xs).2 = some e) (ys : List (Except ε γ)) :
    collectE (xs ++ ys) = collectE xs := by
  induction xs with
  | nil => simp [collectE] at h
  | cons a t ih =>
    cases a with
    | error e' => rw [List.cons_append, collectE_cons_err, collectE_cons_err]
    | ok g =>
      rw [List.cons_append, collectE_cons_ok, collectE_cons_ok, ih h]

theorem collectE_append_ok {ε : Type z} {xs : List (Except ε γ)}
    (h : (collectE xs).2 = none) (ys : List (Except ε γ)) :
    collectE (xs ++ ys) = ((collectE xs).1 ++ (collectE ys).1, (collectE ys).2) := by
  induction xs with
  | nil => simp [collectE]
  | cons a t ih =>
    cases a with
    | error e' => rw [collectE_cons_err] at h; exact absurd h (by simp)
    | ok g =>
      rw [List.cons_append, collectE_cons_ok, collectE_cons_ok, ih h, List.cons_append]

theorem emitGroupE_collectE {ε : Type z} (f : α → β → Except ε γ)
    (buf : List β) (lgrp : List α) :
    emitGroupE f buf lgrp = collectE (lgrp.flatMap (fun x => buf.map (f x))) := by
  induction lgrp with
  | nil => rfl
  | cons x xs ih =>
    rw [List.flatMap_cons]
    rcases hrow : collectE (buf.map (f x)) with ⟨gs, ge⟩
    cases ge with
    | none =>
      rw [collectE_append_ok (by rw [hrow])]
      simp [emitGroupE, emitRowE_collectE, hrow, ih]
    | some e =>
      rw [collectE_append_err (by rw [hrow])]
      simp [emitGroupE, emitRowE_collectE, hrow]

/-- With no upstream failures, the fallible join emits exactly the
successful prefix of the core join's fallible results and stops at the
first combiner failure: nothing skipped, nothing emitted past the failure,
nothing retried. -/
theorem mergeJoinE_collect {ε : Type z} (kl : α → κ) (kr : β → κ)
    (f : α → β → Except ε γ) (L : List α) (R : List β) :
    mergeJoinE kl kr f L none R none = collectE (mergeJoin kl kr f L R) := by
  match L, R with
  | [], R => rw [mergeJoinE, mergeJoin]; rfl
  | l :: ls, [] => rw [mergeJoinE, mergeJoin]; rfl
  | l :: ls, r :: rs =>
    rcases lt_trichotomy (kl l) (kr r) with hlt | heq | hgt
    · rw [mergeJoinE, mergeJoin, if_pos hlt, if_pos hlt,
        mergeJoinE_collect kl kr f ls (r :: rs)]
    · have h1 : ¬kl l < kr r := by rw [heq]; exact lt_irrefl _
      have h2 : ¬kr r < kl l := by rw [heq]; exact lt_irrefl _
      rw [mergeJoinE, mergeJoin, if_neg h1, if_neg h2, if_neg h1, if_neg h2]
      rw [if_neg (by simp)]
      rw [emitGroupE_collectE]
      rcases hgrp : collectE (((l :: ls).takeWhile (fun x => decide (kl x = kl l))).flatMap
          (fun x => (((r :: rs).takeWhile (fun y => decide (kr y = kl l)))).map (f x)))
        with ⟨gs, ge⟩
      cases ge with
      | some e =>
        rw [collectE_append_err (by rw [hgrp])]
        rw [hgrp]
      | none =>
        rw [collectE_append_ok (by rw [hgrp])]
        rw [hgrp, mergeJoinE_collect kl kr f
          ((l :: ls).dropWhile (fun x => decide (kl x = kl l)))
          ((r :: rs).dropWhile (fun y => decide (kr y = kl l)))]
    · rw [mergeJoinE, mergeJoin, if_neg (not_lt.mpr (le_of_lt hgt)), if_pos hgt,
        if_neg (not_lt.mpr (le_of_lt hgt)), if_pos hgt,
        mergeJoinE_collect kl kr f (l :: ls) rs]
  termination_by L.length + R.length
  decreasing_by
  · simp only [List.length_cons]; omega
  · have hl : ((l :: ls).dropWhile (fun x => decide (kl x = kl l))).length ≤ ls.length := by
      have : (l :: ls).dropWhile (fun x => decide (kl x = kl l))
          = ls.dropWhile (fun x => decide (kl x = kl l)) := by
        simp [List.dropWhile_cons]
      rw [this]; exact (List.dropWhile_sublist _).length_le
    have hr : ((r :: rs).dropWhile (fun y => decide (kr y = kl l))).length ≤ rs.length := by
      have : (r :: rs).dropWhile (fun y => decide (kr y = kl l))
          = rs.dropWhile (fun y => decide (kr y = kl l)) := by
        simp [List.dropWhile_cons, heq.symm]
      rw [this]; exact (List.dropWhile_sublist _).length_le
    simp only [List.length_cons]; omega
  · simp only [List.length_cons]; omega

/-- Upstream failures: with a total combiner, whatever the two streams'
failure tails, the fallible join emits a prefix of the core join's output;
it emits everything exactly when no failure is reached; any propagated
failure is one of the streams' failures; and failure-free streams never
produce one. -/
theorem mergeJoinE_upstream {ε : Type z} (kl : α → κ) (kr : β → κ)
    (g : α → β → γ) (L : List α) (le : Option ε) (R : List β) (re : Option ε)
    (gs : List γ) (ge : Option ε)
    (h : mergeJoinE kl kr (fun a b => (Except.ok (g a b) : Except ε γ)) L le R re = (gs, ge)) :
    gs.IsPrefix (mergeJoin kl kr g L R)
    ∧ (ge = none → gs = mergeJoin kl kr g L R)
    ∧ (∀ e, ge = some e → le = some e ∨ re = some e)
    ∧ (le = none → re = none → ge = none) := by
  match L, R with
  | [], R =>
    rw [mergeJoinE] at h
    injection h with h1 h2
    subst h1
    subst h2
    rw [mergeJoin]
    exact ⟨List.nil_prefix, fun _ => rfl, fun e he => Or.inl he, fun hle _ => hle⟩
  | l :: ls, [] =>
    rw [mergeJoinE] at h
    injection h with h1 h2
    subst h1
    subst h2
    rw [mergeJoin]
    exact ⟨List.nil_prefix, fun _ => rfl, fun e he => Or.inr he, fun _ hre => hre⟩
  | l :: ls, r :: rs =>
    rcases lt_trichotomy (kl l) (kr r) with hlt | heq | hgt
    · rw [mergeJoinE, if_pos hlt] at h
      rw [mergeJoin, if_pos hlt]
      exact mergeJoinE_upstream kl kr g ls le (r :: rs) re gs ge h
    · have h1 : ¬kl l < kr r := by rw [heq]; exact lt_irrefl _
      have h2 : ¬kr r < kl l := by rw [heq]; exact lt_irrefl _
      rw [mergeJoinE, if_neg h1, if_neg h2] at h
      rw [mergeJoin, if_neg h1, if_neg h2]
      by_cases hcond : ((r :: rs).dropWhile (fun y => decide (kr y = kl l))).isEmpty
          ∧ re.isSome
      · rw [if_pos hcond] at h
        injection h with h3 h4
        subst h3
        subst h4
        refine ⟨List.nil_prefix, ?_, fun e he => Or.inr he, ?_⟩
        · intro hn
          rw [hn] at hcond
          exact absurd hcond.2 (by simp)
        · intro _ hre
          rw [hre] at hcond
          exact absurd hcond.2 (by simp)
      · rw [if_neg hcond, emitGroupE_pure] at h
        rcases hq : mergeJoinE kl kr (fun a b => (Except.ok (g a b) : Except ε γ))
            ((l :: ls).dropWhile (fun x => decide (kl x = kl l))) le
            ((r :: rs).dropWhile (fun y => decide (kr y = kl l))) re with ⟨qs, qe⟩
        rw [hq] at h
        injection h with h3 h4
        subst h3
        subst h4
        obtain ⟨hpre, hall, herr, hnone⟩ := mergeJoinE_upstream kl kr g
          ((l :: ls).dropWhile (fun x => decide (kl x = kl l))) le
          ((r :: rs).dropWhile (fun y => decide (kr y = kl l))) re qs qe hq
        refine ⟨?_, ?_, herr, hnone⟩
        · obtain ⟨t, ht⟩ := hpre
          exact ⟨t, by rw [List.append_assoc, ht]⟩
        · intro hn
          rw [hall hn]
    · rw [mergeJoinE, if_neg (not_lt.mpr (le_of_lt hgt)), if_pos hgt] at h
      rw [mergeJoin, if_neg (not_lt.mpr (le_of_lt hgt)), if_pos hgt]
      exact mergeJoinE_upstream kl kr g (l :: ls) le rs re gs ge h
  termination_by L.length + R.length
  decreasing_by
  · simp only [List.length_cons]; omega
  · have hl : ((l :: ls).dropWhile (fun x => decide (kl x = kl l))).length ≤ ls.length := by
      have : (l :: ls).dropWhile (fun x => decide (kl x = kl l))
          = ls.dropWhile (fun x => decide (kl x = kl l)) := by
        simp [List.dropWhile_cons]
      rw [this]; exact (List.dropWhile_sublist _).length_le
    have hr : ((r :: rs).dropWhile (fun y => decide (kr y = kl l))).length ≤ rs.length := by
      have : (r :: rs).dropWhile (fun y => decide (kr y = kl l))
          = rs.dropWhile (fun y => decide (kr y = kl l)) := by
        simp [List.dropWhile_cons, heq.symm]
      rw [this]; exact (List.dropWhile_sublist _).length_le
    simp only [List.length_cons]; omega
  · simp only [List.length_cons]; omega

/-- C6: failures propagate immediately and abort the join.  With failing
combiners (and failure-free streams) the emitted results are exactly the
successful prefix of the core join in join order, stopping at the first
combiner failure — nothing skipped, nothing emitted afterwards, nothing
retried.  With failing streams (and a total combiner) the join emits a
prefix of the core join's results, emits everything iff no failure is
reached, propagates only a failure actually raised by one of the streams,
and never fails when neither stream does. -/
theorem claim_C6_failure {ε : Type z} (kl : α → κ) (kr : β → κ) :
    (∀ (f : α → β → Except ε γ) (L : List α) (R : List β),
        mergeJoinE kl kr f L none R none = collectE (mergeJoin kl kr f L R))
    ∧ (∀ (g : α → β → γ) (L : List α) (le : Option ε) (R : List β) (re : Option ε)
        (gs : List γ) (ge : Option ε),
        mergeJoinE kl kr (fun a b => (Except.ok (g a b) : Except ε γ)) L le R re = (gs, ge) →
          gs.IsPrefix (mergeJoin kl kr g L R)
          ∧ (ge = none → gs = mergeJoin kl kr g L R)
          ∧ (∀ e, ge = some e → le = some e ∨ re = some e)
          ∧ (le = none → re = none → ge = none)) :=
  ⟨fun f L R => mergeJoinE_collect kl kr f L R,
   fun g L le R re gs ge h => mergeJoinE_upstream kl kr g L le R re gs ge h⟩

/-- Witness for C6: a left stream that fails immediately propagates its
failure. -/
theorem claim_C6_failure_witness :
    mergeJoinE (id : Nat → Nat) id (fun a b => (Except.ok (a + b) : Except Nat Nat))
        ([] : List Nat) (some 5) ([] : List Nat) none = ([], some 5)
    ∧ ((some 5 : Option Nat) = some 5 ∨ (none : Option Nat) = some 5) := by
  have h : mergeJoinE (id : Nat → Nat) id (fun a b => (Except.ok (a + b) : Except Nat Nat))
      ([] : List Nat) (some 5) ([] : List Nat) none = ([], some 5) := by
    rw [mergeJoinE]
  exact ⟨h,
    ((claim_C6_failure (id : Nat → Nat) id).2 (fun a b => a + b) [] (some 5) [] none
      [] (some 5) h).2.2.1 5 rfl⟩


end Lib
